import Mathlib

/-!
Shallow embedding of the concurrent word-frequency counter in
`src/homework-1/example/counter.hpp`, together with proofs of the spec's
testable properties.

Modelling conventions:
* `std::string` values holding line text are modelled as `List Char`
  (byte-oriented ASCII classification, as the spec restricts itself to);
  completed tokens and map keys are `String`.
* `std::unordered_map<std::string, uint64_t>` is modelled as an association
  list with distinct keys (`CountMap`); C++ iteration order is unspecified,
  and every observation we prove is insensitive to entry order.
* `uint64_t` counts are modelled two ways.  The unbounded `Nat` model
  (`addCount`) backs the sum-equality properties: a `Nat` equality between
  sums pushes forward through reduction mod 2 ^ 64, so those conclusions
  also hold of the wrapped program.  The wrap-faithful model (`addCount64`
  and the `...64` pipeline, storing every count mod 2 ^ 64) backs the
  stored-count invariant, where wraparound is observable: a stored count
  can reach 0 after exactly a multiple of 2 ^ 64 contributions.
* `std::hash<std::string>` is implementation defined; it is threaded through
  as an arbitrary function parameter `hash : String → Nat`, used only via
  `hash w % NUM_SHARDS` exactly as the source does.
-/

/-- `is_word_char` from counter.hpp line 117: `std::isalnum` (C locale, so the
ASCII letters and digits) or underscore. -/
def is_word_char (c : Char) : Bool :=
  (('0' ≤ c && c ≤ '9') || ('A' ≤ c && c ≤ 'Z') || ('a' ≤ c && c ≤ 'z')) || c == '_'

/-- `std::tolower` on an ASCII byte, as applied at counter.hpp line 128. -/
def ascii_tolower (c : Char) : Char :=
  if 'A' ≤ c ∧ c ≤ 'Z' then Char.ofNat (c.toNat + 32) else c

/-- An `std::unordered_map<std::string, uint64_t>` as an association list. -/
abbrev CountMap := List (String × Nat)

/-- `map[w] += k`: `operator[]` default-inserts `0` when the key is absent,
then the addition runs. -/
def addCount : CountMap → String → Nat → CountMap
  | [], w, k => [(w, k)]
  | (w', n) :: rest, w, k =>
    if w' = w then (w', n + k) :: rest else (w', n) :: addCount rest w k

/-- Observe the count stored for `w` (`0` when the key is absent). -/
def cnt (m : CountMap) (w : String) : Nat := (m.lookup w).getD 0

/-- The loop of `parse_line_and_count` (counter.hpp lines 124-139): remaining
input, `current_word`, and the destination map. -/
def parse_go (min_len : Nat) : List Char → List Char → CountMap → CountMap
  | [], cur, m => if min_len ≤ cur.length then addCount m (String.mk cur) 1 else m
  | c :: rest, cur, m =>
    if is_word_char c then parse_go min_len rest (cur ++ [ascii_tolower c]) m
    else parse_go min_len rest []
      (if min_len ≤ cur.length then addCount m (String.mk cur) 1 else m)

/-- `parse_line_and_count` from counter.hpp lines 121-140.  The C++ `min_len`
is an `int` cast to `size_t` in the comparison; every configuration accepted
by `parse_args` has `min_len ≥ 1`, so it is modelled as a `Nat`. -/
def parse_line_and_count (line : List Char) (min_len : Nat) (m : CountMap) : CountMap :=
  parse_go min_len line [] m

/-- Proof helper: the sequence of tokens the scanner loop emits, in order. -/
def emitGo (min_len : Nat) : List Char → List Char → List String
  | [], cur => if min_len ≤ cur.length then [String.mk cur] else []
  | c :: rest, cur =>
    if is_word_char c then emitGo min_len rest (cur ++ [ascii_tolower c])
    else (if min_len ≤ cur.length then [String.mk cur] else []) ++ emitGo min_len rest []

/-- The tokens emitted for a whole line. -/
def emitLine (min_len : Nat) (line : List Char) : List String := emitGo min_len line []

/-- Specification-side tokenizer (spec section 4.3): the maximal runs of
word characters of a line, case-folded to lowercase. -/
def runs : List Char → List (List Char)
  | [] => []
  | c :: rest =>
    if is_word_char c then
      ((c :: rest).takeWhile is_word_char).map ascii_tolower ::
        runs (rest.dropWhile is_word_char)
    else runs rest
termination_by l => l.length
decreasing_by
  · exact Nat.lt_succ_of_le (List.dropWhile_sublist is_word_char).length_le
  · exact Nat.lt_succ_of_le (Nat.le_refl rest.length)

/-- Specification-side token list: the runs of length at least `min_len`,
as strings (spec section 4.3). -/
def tokens (line : List Char) (min_len : Nat) : List String :=
  ((runs line).filter (fun r => decide (min_len ≤ r.length))).map String.mk

theorem cnt_addCount (m : CountMap) (w v : String) (k : Nat) :
    cnt (addCount m w k) v = cnt m v + if v = w then k else 0 := by
  induction m with
  | nil =>
    by_cases h : v = w
    · subst h; simp [addCount, cnt]
    · simp [addCount, cnt, List.lookup_cons, beq_false_of_ne h, h]
  | cons p rest ih =>
    obtain ⟨w', n⟩ := p
    by_cases hw : w' = w
    · subst hw
      by_cases hv : v = w'
      · subst hv; simp [addCount, cnt]
      · simp [addCount, cnt, List.lookup_cons, beq_false_of_ne hv, hv]
    · by_cases hv : v = w'
      · subst hv
        simp [addCount, if_neg hw, cnt, if_neg hw]
      · simp only [addCount, if_neg hw, cnt, List.lookup_cons, beq_false_of_ne hv]
        exact ih

theorem cnt_parse_go (min_len : Nat) (line : List Char) :
    ∀ (cur : List Char) (m : CountMap) (w : String),
      cnt (parse_go min_len line cur m) w = cnt m w + (emitGo min_len line cur).count w := by
  induction line with
  | nil =>
    intro cur m w
    by_cases h : min_len ≤ cur.length
    · by_cases hw : w = String.mk cur
      · subst hw; simp [parse_go, emitGo, h, cnt_addCount, List.count_singleton, beq_iff_eq]
      · simp [parse_go, emitGo, h, cnt_addCount, List.count_singleton, beq_iff_eq, hw,
          fun h => hw (Eq.symm h)]
    · simp [parse_go, emitGo, h]
  | cons c rest ih =>
    intro cur m w
    by_cases hc : is_word_char c
    · simp [parse_go, emitGo, hc, ih]
    · by_cases h : min_len ≤ cur.length
      · by_cases hw : w = String.mk cur
        · subst hw
          simp [parse_go, emitGo, hc, h, ih, cnt_addCount, List.count_append,
            List.count_singleton, beq_iff_eq]
          omega
        · simp [parse_go, emitGo, hc, h, ih, cnt_addCount, List.count_append,
            List.count_singleton, beq_iff_eq, hw, fun h => hw (Eq.symm h)]
      · simp [parse_go, emitGo, hc, h, ih]

theorem emitGo_split (min_len : Nat) (hmin : 1 ≤ min_len) :
    ∀ (rest cur : List Char),
      emitGo min_len rest cur =
        (if min_len ≤ (cur ++ (rest.takeWhile is_word_char).map ascii_tolower).length
          then [String.mk (cur ++ (rest.takeWhile is_word_char).map ascii_tolower)] else []) ++
          emitGo min_len (rest.dropWhile is_word_char) [] := by
  intro rest
  have h0 : ¬ (min_len ≤ 0) := by omega
  induction rest with
  | nil =>
    intro cur
    simp [emitGo, h0]
  | cons d rest' ih =>
    intro cur
    by_cases hd : is_word_char d
    · simp only [emitGo, hd, if_pos, List.takeWhile_cons_of_pos hd,
        List.dropWhile_cons_of_pos hd]
      rw [ih (cur ++ [ascii_tolower d])]
      simp [List.append_assoc]
    · simp [emitGo, hd, h0]

theorem runs_cons_pos {c : Char} {rest : List Char} (hc : is_word_char c) :
    runs (c :: rest) =
      ((c :: rest).takeWhile is_word_char).map ascii_tolower ::
        runs (rest.dropWhile is_word_char) := by
  rw [runs.eq_def]; simp [hc]

theorem runs_cons_neg {c : Char} {rest : List Char} (hc : ¬ is_word_char c) :
    runs (c :: rest) = runs rest := by
  rw [runs.eq_def]; simp [hc]

theorem emitLine_eq_tokens (min_len : Nat) (hmin : 1 ≤ min_len) :
    ∀ line : List Char, emitLine min_len line = tokens line min_len := by
  have h0 : ¬ (min_len ≤ 0) := by omega
  intro line
  induction line using runs.induct with
  | case1 => simp [emitLine, emitGo, tokens, runs, h0]
  | case2 c rest hc ih =>
    show emitGo min_len (c :: rest) [] = tokens (c :: rest) min_len
    rw [emitGo, if_pos hc, List.nil_append, emitGo_split min_len hmin rest [ascii_tolower c]]
    rw [show emitGo min_len (rest.dropWhile is_word_char) [] =
      emitLine min_len (rest.dropWhile is_word_char) from rfl, ih]
    simp only [tokens]
    rw [runs_cons_pos hc, List.takeWhile_cons_of_pos hc]
    simp only [List.filter_cons, List.map_cons, List.length_map, List.length_cons,
      List.singleton_append, List.length_append, List.length_singleton]
    by_cases hl : min_len ≤ (rest.takeWhile is_word_char).length + 1
    · simp [hl, Nat.add_comm]
    · simp [hl, Nat.add_comm]
  | case3 c rest hc ih =>
    show emitGo min_len (c :: rest) [] = tokens (c :: rest) min_len
    rw [emitGo, if_neg hc]
    simp only [List.length_nil, h0, if_false, List.nil_append]
    rw [show emitGo min_len rest [] = emitLine min_len rest from rfl, ih]
    simp only [tokens, runs_cons_neg hc]

/-- C2: for every input line and every `min_len ≥ 1`, `parse_line_and_count`
scans left to right, accumulates maximal runs of word characters case-folded
to lowercase, and adds to the destination mapping exactly one count for each
run whose length is at least `min_len`, including a run ending at end of line
(no trailing-token loss); shorter runs are discarded.  In particular the line
`"a bee cat dogs"` with `min_len = 4` contributes only `dogs:1`. -/
theorem claim_C2_tokenizer :
    (∀ (line : List Char) (min_len : Nat) (m : CountMap) (w : String), 1 ≤ min_len →
      cnt (parse_line_and_count line min_len m) w = cnt m w + (tokens line min_len).count w) ∧
    parse_line_and_count ("a bee cat dogs".toList) 4 [] = [("dogs", 1)] := by
  constructor
  · intro line min_len m w hmin
    rw [parse_line_and_count, cnt_parse_go, ← emitLine_eq_tokens min_len hmin]
    rfl
  · rfl

/-- Witness for C2 at the line `"a bee cat dogs"` with `min_len = 4` and the
word `dogs`. -/
theorem claim_C2_tokenizer_witness :
    cnt (parse_line_and_count ("a bee cat dogs".toList) 4 []) "dogs"
      = cnt [] "dogs" + (tokens ("a bee cat dogs".toList) 4).count "dogs" :=
  claim_C2_tokenizer.1 ("a bee cat dogs".toList) 4 [] "dogs" (by decide)

/-- C9: `parse_line_and_count` is a pure function of its arguments; the
increment it applies to the destination mapping depends only on the line and
`min_len`, so two runs on equal inputs produce equal increments, and
tokenizing the same line twice adds the same counts both times. -/
theorem claim_C9_idempotent :
    ∀ (line : List Char) (min_len : Nat) (m₁ m₂ : CountMap) (w : String),
      cnt (parse_line_and_count line min_len m₁) w - cnt m₁ w
        = cnt (parse_line_and_count line min_len m₂) w - cnt m₂ w := by
  intro line min_len m₁ m₂ w
  rw [parse_line_and_count, parse_line_and_count, cnt_parse_go, cnt_parse_go]
  omega

/-- `ThreadSafeQueue` state (counter.hpp lines 83-115): the queued paths in
FIFO order (`push` appends at the back) and the `producer_done` flag. -/
structure TSQueue where
  items : List String
  producer_done : Bool
deriving DecidableEq

/-- `ThreadSafeQueue::push` (lines 91-95). -/
def TSQueue.push (q : TSQueue) (p : String) : TSQueue :=
  ⟨q.items ++ [p], q.producer_done⟩

/-- Result of `ThreadSafeQueue::pop`: an item together with the successor
state, the end-of-input signal (`pop` returned `false`), or a blocked wait
(the condition `!q.empty() || producer_done` never released the thread
within this state). -/
inductive PopResult where
  | item : String → TSQueue → PopResult
  | endOfInput : PopResult
  | blocked : PopResult
deriving DecidableEq

/-- `ThreadSafeQueue::pop` (lines 97-108): wait until an item is available or
the producer is done; return `false` (end of input) exactly when the queue is
empty and closed, otherwise move the front item out. -/
def TSQueue.pop (q : TSQueue) : PopResult :=
  match q.items with
  | [] => if q.producer_done then .endOfInput else .blocked
  | p :: rest => .item p ⟨rest, q.producer_done⟩

/-- `ThreadSafeQueue::set_done` (lines 110-114). -/
def TSQueue.set_done (q : TSQueue) : TSQueue :=
  ⟨q.items, true⟩

/-- C6: `pop` returns the earliest item still enqueued (FIFO: `push` appends
at the back and `pop` takes the front), signals end of input exactly when the
queue is simultaneously empty and closed, and once `set_done` has run and the
queue has drained every subsequent `pop` immediately returns end of input
(the state is unchanged, so this persists). -/
theorem claim_C6_queue_pop :
    ∀ q : TSQueue,
      (∀ p, (q.push p).items = q.items ++ [p]) ∧
      (∀ p rest, q.items = p :: rest → q.pop = .item p ⟨rest, q.producer_done⟩) ∧
      (q.pop = .endOfInput ↔ q.items = [] ∧ q.producer_done = true) ∧
      (q.items = [] → (q.set_done).pop = .endOfInput) := by
  intro q
  refine ⟨fun p => rfl, fun p rest h => by rw [TSQueue.pop, h], ?_, fun h => by
    rw [TSQueue.set_done, TSQueue.pop, h]; rfl⟩
  constructor
  · intro h
    rcases hq : q.items with _ | ⟨p, rest⟩
    · refine ⟨rfl, ?_⟩
      rw [TSQueue.pop, hq] at h
      by_cases hd : q.producer_done
      · exact hd
      · simp [hd] at h
    · rw [TSQueue.pop, hq] at h
      exact absurd h (by simp)
  · rintro ⟨h1, h2⟩
    rw [TSQueue.pop, h1, h2]
    rfl

/-- Witness for C6: a queue holding `a, b` in that order with the producer
done pops `a` first, and a drained closed queue reports end of input. -/
theorem claim_C6_queue_pop_witness :
    TSQueue.pop ⟨["a", "b"], true⟩ = .item "a" ⟨["b"], true⟩ ∧
    TSQueue.pop (TSQueue.set_done ⟨[], false⟩) = .endOfInput :=
  ⟨(claim_C6_queue_pop ⟨["a", "b"], true⟩).2.1 "a" ["b"] rfl,
    (claim_C6_queue_pop ⟨[], false⟩).2.2.2 rfl⟩

/-- The comparator handed to `std::partial_sort` (counter.hpp lines 221-227)
orders by count descending, breaking ties by word ascending; `rankLE` is the
associated total order (its negation swaps the arguments of the strict C++
comparator). -/
def rankLE (a b : String × Nat) : Prop :=
  b.2 < a.2 ∨ (a.2 = b.2 ∧ a.1 ≤ b.1)

instance : DecidableRel rankLE := fun a b =>
  inferInstanceAs (Decidable (b.2 < a.2 ∨ (a.2 = b.2 ∧ a.1 ≤ b.1)))

instance : IsTotal (String × Nat) rankLE where
  total a b := by
    rcases Nat.lt_trichotomy a.2 b.2 with h | h | h
    · exact Or.inr (Or.inl h)
    · rcases le_total a.1 b.1 with hw | hw
      · exact Or.inl (Or.inr ⟨h, hw⟩)
      · exact Or.inr (Or.inr ⟨h.symm, hw⟩)
    · exact Or.inl (Or.inl h)

instance : IsTrans (String × Nat) rankLE where
  trans a b c hab hbc := by
    rcases hab with h1 | ⟨h1, hw1⟩
    · rcases hbc with h2 | ⟨h2, hw2⟩
      · exact Or.inl (h2.trans h1)
      · exact Or.inl (h2 ▸ h1)
    · rcases hbc with h2 | ⟨h2, hw2⟩
      · exact Or.inl (h1 ▸ h2)
      · exact Or.inr ⟨h1.trans h2, hw1.trans hw2⟩

instance : IsAntisymm (String × Nat) rankLE where
  antisymm a b hab hba := by
    rcases hab with h1 | ⟨h1, hw1⟩
    · rcases hba with h2 | ⟨h2, hw2⟩
      · exact absurd (h1.trans h2) (lt_irrefl _)
      · exact absurd h1 (h2 ▸ lt_irrefl _)
    · rcases hba with h2 | ⟨h2, hw2⟩
      · exact absurd h2 (h1 ▸ lt_irrefl _)
      · exact Prod.ext (le_antisymm hw1 hw2) h1

/-- The ranking step of `main` (counter.hpp lines 216-227):
`count_to_show = min(top_m, size())`, then `std::partial_sort` moves the
`count_to_show` least entries under the strict comparator to the front in
comparator order.  Under that comparator two entries compare equivalent only
when they are equal as pairs, so the sorted prefix is unique and equals the
prefix of the fully sorted sequence, which is how it is modelled. -/
def rank_select (entries : List (String × Nat)) (top_m : Nat) : List (String × Nat) :=
  (List.insertionSort rankLE entries).take (min top_m entries.length)

/-- C3: the emitted sequence is sorted by count descending with ties broken
by word ascending, and on any entry list with pairwise-distinct words (as a
merged table always has) two emitted entries of equal count appear with the
lexicographically smaller word strictly first. -/
theorem claim_C3_ranked_order :
    ∀ (entries : List (String × Nat)) (top_m : Nat),
      (rank_select entries top_m).Sorted rankLE ∧
      ((entries.map Prod.fst).Nodup →
        (rank_select entries top_m).Pairwise (fun a b => a.2 = b.2 → a.1 < b.1)) := by
  intro entries top_m
  have hsorted : (List.insertionSort rankLE entries).Sorted rankLE :=
    List.sorted_insertionSort rankLE entries
  have htake : List.Sublist (rank_select entries top_m) (List.insertionSort rankLE entries) :=
    List.take_sublist _ _
  refine ⟨hsorted.sublist htake, fun hnd => ?_⟩
  have hperm : List.Perm (List.insertionSort rankLE entries) entries :=
    List.perm_insertionSort rankLE entries
  have hne : entries.Pairwise (fun a b => a.1 ≠ b.1) := List.pairwise_map.mp hnd
  have hne' : (List.insertionSort rankLE entries).Pairwise (fun a b => a.1 ≠ b.1) :=
    (List.Perm.pairwise_iff (fun {x y} h he => h he.symm) hperm).mpr hne
  have hcomb := (hsorted.and hne').sublist htake
  refine hcomb.imp ?_
  rintro a b ⟨hle | ⟨hc, hw⟩, hne⟩
  · intro hcc; exact absurd hle (hcc ▸ lt_irrefl _)
  · intro _; exact lt_of_le_of_ne hw hne

/-- Witness for C3 at a concrete entry list with a count tie between
distinct words. -/
theorem claim_C3_ranked_order_witness :
    (rank_select [("b", 2), ("a", 2), ("c", 5)] 3).Pairwise
      (fun a b => a.2 = b.2 → a.1 < b.1) :=
  (claim_C3_ranked_order [("b", 2), ("a", 2), ("c", 5)] 3).2 (by decide)

/-- C4: for a merged table flattened to `entries` (each distinct word occurs
exactly once, so `entries.length` is the distinct-word count) and any
`top_m ≥ 1`, the emitted sequence has length `min top_m entries.length`, and
when the distinct-word count is below `top_m` the whole table is emitted in
sorted order. -/
theorem claim_C4_topM_bound :
    ∀ (entries : List (String × Nat)) (top_m : Nat), 1 ≤ top_m →
      (entries.map Prod.fst).Nodup →
      (rank_select entries top_m).length = min top_m entries.length ∧
      (entries.length < top_m →
        rank_select entries top_m = List.insertionSort rankLE entries) := by
  intro entries top_m _ _
  constructor
  · rw [rank_select, List.length_take, List.length_insertionSort]
    omega
  · intro h
    rw [rank_select, Nat.min_eq_right (Nat.le_of_lt h),
      ← List.length_insertionSort rankLE entries, List.take_length]

/-- Witness for C4 at a three-entry table with `top_m = 2`. -/
theorem claim_C4_topM_bound_witness :
    (rank_select [("foo", 3), ("bar", 2), ("baz", 1)] 2).length =
      min 2 [("foo", 3), ("bar", 2), ("baz", 1)].length :=
  (claim_C4_topM_bound [("foo", 3), ("bar", 2), ("baz", 1)] 2 (by decide) (by decide)).1

/-- One file's contents, line by line, as `std::getline` delivers them. -/
abbrev FileContent := List (List Char)

/-- The per-file line loop of `consumer` (counter.hpp lines 162-165). -/
def count_file (min_len : Nat) (m : CountMap) (f : FileContent) : CountMap :=
  f.foldl (fun m l => parse_line_and_count l min_len m) m

/-- A worker's private tally after draining its share of the queue with every
file readable (the pop loop of `consumer`, lines 151-166). -/
def worker_local (min_len : Nat) (files : List FileContent) : CountMap :=
  files.foldl (count_file min_len) []

/-- The pop loop of `consumer` with open failures (lines 155-166): `fsys`
maps a path to its lines, or to `none` when `is_open()` fails, in which case
the worker prints a diagnostic and `continue`s with the next item. -/
def consumer_local (fsys : String → Option FileContent) (min_len : Nat)
    (paths : List String) : CountMap :=
  paths.foldl (fun m p =>
    match fsys p with
    | none => m
    | some f => count_file min_len m f) []

theorem consumer_foldl_eq (fsys : String → Option FileContent) (min_len : Nat) :
    ∀ (paths : List String) (m : CountMap),
      paths.foldl (fun m p =>
        match fsys p with
        | none => m
        | some f => count_file min_len m f) m
        = (paths.filterMap fsys).foldl (count_file min_len) m := by
  intro paths
  induction paths with
  | nil => intro m; rfl
  | cons p rest ih =>
    intro m
    rcases hp : fsys p with _ | f <;>
      simp [List.filterMap_cons, hp, ih]

/-- C7: an unreadable path is skipped with a diagnostic and the worker moves
to the next item — the pass neither aborts nor contributes anything for the
unreadable file, so the private tally (and hence the final counts) equals the
one computed from the readable files alone. -/
theorem claim_C7_skip_and_continue :
    ∀ (fsys : String → Option FileContent) (min_len : Nat) (paths : List String),
      consumer_local fsys min_len paths
        = worker_local min_len (paths.filterMap fsys) ∧
      ∀ p rest, fsys p = none →
        consumer_local fsys min_len (p :: rest) = consumer_local fsys min_len rest := by
  intro fsys min_len paths
  constructor
  · exact consumer_foldl_eq fsys min_len paths []
  · intro p rest hp
    simp [consumer_local, hp]

/-- Witness for C7: one unreadable path among two readable ones, and the
skipped path leaving the tally loop unchanged. -/
theorem claim_C7_skip_and_continue_witness :
    consumer_local
      (fun p => if p = "bad" then none else some [("x x".toList)]) 1
      ["good1", "bad", "good2"]
      = worker_local 1
        ((["good1", "bad", "good2"].filterMap
          (fun p => if p = "bad" then none else some [("x x".toList)]))) ∧
    consumer_local
      (fun p => if p = "bad" then none else some [("x x".toList)]) 1
      ["bad", "good2"]
      = consumer_local
        (fun p => if p = "bad" then none else some [("x x".toList)]) 1 ["good2"] :=
  ⟨(claim_C7_skip_and_continue
      (fun p => if p = "bad" then none else some [("x x".toList)]) 1
      ["good1", "bad", "good2"]).1,
    (claim_C7_skip_and_continue
      (fun p => if p = "bad" then none else some [("x x".toList)]) 1
      ["good2"]).2 "bad" ["good2"] (by decide)⟩

/-- `NUM_SHARDS` (counter.hpp line 142). -/
def NUM_SHARDS : Nat := 16

/-- `get_shard_index` (counter.hpp lines 147-149); `std::hash<std::string>`
is implementation defined, hence the `hash` parameter. -/
def get_shard_index (hash : String → Nat) (w : String) : Nat :=
  hash w % NUM_SHARDS

/-- The global sharded table `global_counts` (counter.hpp lines 143-144);
only indices below `NUM_SHARDS` are ever read or written. -/
def ShardTable := Nat → CountMap

/-- The freshly constructed table of `NUM_SHARDS` empty maps. -/
def emptyTable : ShardTable := fun _ => []

/-- The merge loop at the end of `consumer` (counter.hpp lines 168-172):
each private entry is added, under the shard's lock, to the shard selected by
the hash of its word. -/
def merge_into (hash : String → Nat) (t : ShardTable) (loc : CountMap) : ShardTable :=
  loc.foldl (fun t p => fun i =>
    if i = get_shard_index hash p.1 then addCount (t i) p.1 p.2 else t i) t

/-- All workers merging their private tallies in the order given; claim C5
shows the observable result is independent of this order. -/
def run_workers (hash : String → Nat) (min_len : Nat)
    (parts : List (List FileContent)) : ShardTable :=
  parts.foldl (fun t part => merge_into hash t (worker_local min_len part)) emptyTable

/-- The flattening loop of `main` (counter.hpp lines 209-214), building
`sorted_words` from the shards in index order. -/
def gather (t : ShardTable) : List (String × Nat) :=
  ((List.range NUM_SHARDS).map t).flatten

/-- A `CountMap` whose keys are pairwise distinct, as `std::unordered_map`
guarantees. -/
def keysNodup (m : CountMap) : Prop := (m.map Prod.fst).Nodup

/-- A `CountMap` whose stored counts are all positive. -/
def valsPos (m : CountMap) : Prop := ∀ p ∈ m, 1 ≤ p.2

theorem keys_addCount (m : CountMap) (w : String) (k : Nat) :
    ∀ v, v ∈ (addCount m w k).map Prod.fst ↔ v ∈ m.map Prod.fst ∨ v = w := by
  induction m with
  | nil => intro v; simp [addCount]
  | cons p rest ih =>
    intro v
    obtain ⟨w', n⟩ := p
    by_cases hw : w' = w
    · subst hw; simp [addCount]; tauto
    · simp [addCount, if_neg hw, ih v]; tauto

theorem keysNodup_addCount (m : CountMap) (w : String) (k : Nat)
    (h : keysNodup m) : keysNodup (addCount m w k) := by
  induction m with
  | nil => simp [keysNodup, addCount]
  | cons p rest ih =>
    obtain ⟨w', n⟩ := p
    rw [keysNodup, List.map_cons, List.nodup_cons] at h
    by_cases hw : w' = w
    · subst hw
      rw [keysNodup, addCount, if_pos rfl, List.map_cons, List.nodup_cons]
      exact h
    · rw [keysNodup, addCount, if_neg hw, List.map_cons, List.nodup_cons]
      refine ⟨fun hmem => ?_, ih h.2⟩
      rcases (keys_addCount rest w k w').mp hmem with hin | heq
      · exact h.1 hin
      · exact hw heq

theorem valsPos_addCount (m : CountMap) (w : String) (k : Nat)
    (hk : 1 ≤ k) (h : valsPos m) : valsPos (addCount m w k) := by
  induction m with
  | nil =>
    intro p hp
    simp [addCount] at hp
    simp [hp, hk]
  | cons q rest ih =>
    obtain ⟨w', n⟩ := q
    by_cases hw : w' = w
    · subst hw
      intro p hp
      rw [addCount, if_pos rfl] at hp
      rcases List.mem_cons.mp hp with h1 | h1
      · subst h1; omega
      · exact h p (List.mem_cons_of_mem _ h1)
    · intro p hp
      rw [addCount, if_neg hw] at hp
      rcases List.mem_cons.mp hp with h1 | h1
      · subst h1; exact h _ (List.mem_cons_self _ _)
      · exact ih (fun q hq => h q (List.mem_cons_of_mem _ hq)) p h1

theorem keysNodup_parse_go (min_len : Nat) (line : List Char) :
    ∀ (cur : List Char) (m : CountMap), keysNodup m →
      keysNodup (parse_go min_len line cur m) := by
  induction line with
  | nil =>
    intro cur m hm
    rw [parse_go]
    split
    · exact keysNodup_addCount m _ 1 hm
    · exact hm
  | cons c rest ih =>
    intro cur m hm
    rw [parse_go]
    split
    · exact ih _ m hm
    · refine ih _ _ ?_
      split
      · exact keysNodup_addCount m _ 1 hm
      · exact hm

theorem valsPos_parse_go (min_len : Nat) (line : List Char) :
    ∀ (cur : List Char) (m : CountMap), valsPos m →
      valsPos (parse_go min_len line cur m) := by
  induction line with
  | nil =>
    intro cur m hm
    rw [parse_go]
    split
    · exact valsPos_addCount m _ 1 (by omega) hm
    · exact hm
  | cons c rest ih =>
    intro cur m hm
    rw [parse_go]
    split
    · exact ih _ m hm
    · refine ih _ _ ?_
      split
      · exact valsPos_addCount m _ 1 (by omega) hm
      · exact hm

theorem keysNodup_count_file (min_len : Nat) (f : FileContent) :
    ∀ m, keysNodup m → keysNodup (count_file min_len m f) := by
  induction f with
  | nil => intro m hm; exact hm
  | cons l rest ih =>
    intro m hm
    exact ih _ (keysNodup_parse_go min_len l [] m hm)

theorem valsPos_count_file (min_len : Nat) (f : FileContent) :
    ∀ m, valsPos m → valsPos (count_file min_len m f) := by
  induction f with
  | nil => intro m hm; exact hm
  | cons l rest ih =>
    intro m hm
    exact ih _ (valsPos_parse_go min_len l [] m hm)

theorem keysNodup_foldl_count_file (min_len : Nat) (files : List FileContent) :
    ∀ m, keysNodup m → keysNodup (files.foldl (count_file min_len) m) := by
  induction files with
  | nil => intro m hm; exact hm
  | cons f rest ih => intro m hm; exact ih _ (keysNodup_count_file min_len f m hm)

theorem valsPos_foldl_count_file (min_len : Nat) (files : List FileContent) :
    ∀ m, valsPos m → valsPos (files.foldl (count_file min_len) m) := by
  induction files with
  | nil => intro m hm; exact hm
  | cons f rest ih => intro m hm; exact ih _ (valsPos_count_file min_len f m hm)

theorem keysNodup_worker_local (min_len : Nat) (files : List FileContent) :
    keysNodup (worker_local min_len files) :=
  keysNodup_foldl_count_file min_len files [] (by simp [keysNodup])

theorem valsPos_worker_local (min_len : Nat) (files : List FileContent) :
    valsPos (worker_local min_len files) :=
  valsPos_foldl_count_file min_len files [] (by simp [valsPos])

theorem cnt_eq_zero_of_not_mem_keys (m : CountMap) (w : String)
    (h : w ∉ m.map Prod.fst) : cnt m w = 0 := by
  induction m with
  | nil => rfl
  | cons p rest ih =>
    rw [List.map_cons, List.mem_cons] at h
    push_neg at h
    rw [cnt, List.lookup_cons, beq_false_of_ne h.1]
    exact ih h.2

theorem lookup_eq_some_of_mem (m : CountMap) (p : String × Nat)
    (hnd : keysNodup m) (hp : p ∈ m) : m.lookup p.1 = some p.2 := by
  induction m with
  | nil => cases hp
  | cons q rest ih =>
    rw [keysNodup, List.map_cons, List.nodup_cons] at hnd
    rcases List.mem_cons.mp hp with h1 | h1
    · subst h1
      exact List.lookup_cons_self
    · have hne : p.1 ≠ q.1 := by
        intro h
        exact hnd.1 (h ▸ List.mem_map_of_mem Prod.fst h1)
      obtain ⟨w', n⟩ := q
      rw [List.lookup_cons, beq_false_of_ne hne]
      exact ih hnd.2 h1

theorem mem_of_lookup_eq_some (m : CountMap) (w : String) (n : Nat)
    (h : m.lookup w = some n) : (w, n) ∈ m := by
  induction m with
  | nil => cases h
  | cons q rest ih =>
    obtain ⟨w', n'⟩ := q
    rw [List.lookup_cons] at h
    by_cases hw : w = w'
    · subst hw
      simp at h
      subst h
      exact List.mem_cons_self _ _
    · rw [beq_false_of_ne hw] at h
      exact List.mem_cons_of_mem _ (ih h)

theorem cnt_cons (w' : String) (n : Nat) (rest : CountMap) (w : String) :
    cnt ((w', n) :: rest) w = if w = w' then n else cnt rest w := by
  by_cases h : w = w'
  · subst h; simp [cnt]
  · rw [cnt, List.lookup_cons, beq_false_of_ne h, if_neg h]; rfl

/-- The multiset of tokens a file contributes. -/
def file_tokens (min_len : Nat) (f : FileContent) : List String :=
  (f.map (emitLine min_len)).flatten

theorem cnt_count_file (min_len : Nat) (f : FileContent) :
    ∀ (m : CountMap) (w : String),
      cnt (count_file min_len m f) w = cnt m w + (file_tokens min_len f).count w := by
  induction f with
  | nil => intro m w; simp [count_file, file_tokens]
  | cons l rest ih =>
    intro m w
    show cnt (rest.foldl (fun m l => parse_line_and_count l min_len m)
      (parse_line_and_count l min_len m)) w = _
    rw [show rest.foldl (fun m l => parse_line_and_count l min_len m)
        (parse_line_and_count l min_len m)
      = count_file min_len (parse_line_and_count l min_len m) rest from rfl]
    rw [ih _ w, parse_line_and_count, cnt_parse_go]
    simp [file_tokens, List.count_append, emitLine]
    omega

theorem cnt_foldl_count_file (min_len : Nat) (files : List FileContent) :
    ∀ (m : CountMap) (w : String),
      cnt (files.foldl (count_file min_len) m) w
        = cnt m w + (files.map (fun f => (file_tokens min_len f).count w)).sum := by
  induction files with
  | nil => intro m w; simp
  | cons f rest ih =>
    intro m w
    rw [List.foldl_cons, ih _ w, cnt_count_file]
    simp [Nat.add_assoc]

theorem cnt_worker_local (min_len : Nat) (files : List FileContent) (w : String) :
    cnt (worker_local min_len files) w
      = (files.map (fun f => (file_tokens min_len f).count w)).sum := by
  rw [worker_local, cnt_foldl_count_file]
  simp [cnt]

theorem mem_addCount (m : CountMap) (w : String) (k : Nat) :
    ∀ q ∈ addCount m w k, q ∈ m ∨ q.1 = w := by
  induction m with
  | nil =>
    intro q hq
    rw [addCount] at hq
    rcases List.mem_singleton.mp hq with h
    exact Or.inr (by rw [h])
  | cons p rest ih =>
    intro q hq
    obtain ⟨w', n⟩ := p
    by_cases hw : w' = w
    · subst hw
      rw [addCount, if_pos rfl] at hq
      rcases List.mem_cons.mp hq with h1 | h1
      · exact Or.inr (by rw [h1])
      · exact Or.inl (List.mem_cons_of_mem _ h1)
    · rw [addCount, if_neg hw] at hq
      rcases List.mem_cons.mp hq with h1 | h1
      · exact Or.inl (h1 ▸ List.mem_cons_self _ _)
      · rcases ih q h1 with h2 | h2
        · exact Or.inl (List.mem_cons_of_mem _ h2)
        · exact Or.inr h2

/-- Every entry of every shard sits in the shard its word hashes to. -/
def shardOK (hash : String → Nat) (t : ShardTable) : Prop :=
  ∀ i, ∀ p ∈ t i, get_shard_index hash p.1 = i

/-- Every shard of the table has pairwise-distinct keys. -/
def tblNodup (t : ShardTable) : Prop := ∀ i, keysNodup (t i)

/-- Every shard of the table stores only positive counts. -/
def tblPos (t : ShardTable) : Prop := ∀ i, valsPos (t i)

theorem merge_into_invariants (hash : String → Nat) (loc : CountMap) :
    ∀ t : ShardTable, valsPos loc →
      shardOK hash t → tblNodup t → tblPos t →
      shardOK hash (merge_into hash t loc) ∧
        tblNodup (merge_into hash t loc) ∧ tblPos (merge_into hash t loc) := by
  induction loc with
  | nil => intro t _ h1 h2 h3; exact ⟨h1, h2, h3⟩
  | cons p rest ih =>
    intro t hpos h1 h2 h3
    obtain ⟨pw, pn⟩ := p
    show shardOK hash (merge_into hash
      (fun i => if i = get_shard_index hash pw then addCount (t i) pw pn else t i)
      rest) ∧ _
    refine ih _ (fun q hq => hpos q (List.mem_cons_of_mem _ hq)) ?_ ?_ ?_
    · intro i q hq
      dsimp only at hq
      by_cases hi : i = get_shard_index hash pw
      · rw [if_pos hi] at hq
        rcases mem_addCount (t i) pw pn q hq with h4 | h4
        · exact h1 i q h4
        · rw [h4, hi]
      · rw [if_neg hi] at hq
        exact h1 i q hq
    · intro i
      dsimp only
      by_cases hi : i = get_shard_index hash pw
      · rw [if_pos hi]
        exact keysNodup_addCount _ _ _ (h2 i)
      · rw [if_neg hi]
        exact h2 i
    · intro i
      dsimp only
      by_cases hi : i = get_shard_index hash pw
      · rw [if_pos hi]
        exact valsPos_addCount _ _ _ (hpos (pw, pn) (List.mem_cons_self _ _)) (h3 i)
      · rw [if_neg hi]
        exact h3 i

theorem cnt_merge_into_shard (hash : String → Nat) (loc : CountMap) :
    ∀ (t : ShardTable) (w : String), keysNodup loc →
      cnt (merge_into hash t loc (get_shard_index hash w)) w
        = cnt (t (get_shard_index hash w)) w + cnt loc w := by
  induction loc with
  | nil => intro t w _; simp [merge_into, cnt]
  | cons p rest ih =>
    intro t w hnd
    obtain ⟨pw, pn⟩ := p
    rw [keysNodup, List.map_cons, List.nodup_cons] at hnd
    show cnt (merge_into hash
      (fun i => if i = get_shard_index hash pw then addCount (t i) pw pn else t i)
      rest (get_shard_index hash w)) w = _
    rw [ih _ w hnd.2, cnt_cons]
    by_cases hw : w = pw
    · subst hw
      have h0 : cnt rest w = 0 :=
        cnt_eq_zero_of_not_mem_keys rest w hnd.1
      rw [h0, if_pos rfl, if_pos rfl, cnt_addCount, if_pos rfl]
      omega
    · rw [if_neg hw]
      by_cases hs : get_shard_index hash w = get_shard_index hash pw
      · rw [if_pos hs, cnt_addCount, if_neg hw, hs]
        omega
      · rw [if_neg hs]

theorem cnt_merge_into_ne (hash : String → Nat) (loc : CountMap) :
    ∀ (t : ShardTable) (w : String) (i : Nat), i ≠ get_shard_index hash w →
      cnt (merge_into hash t loc i) w = cnt (t i) w := by
  induction loc with
  | nil => intro t w i _; rfl
  | cons p rest ih =>
    intro t w i hi
    obtain ⟨pw, pn⟩ := p
    show cnt (merge_into hash
      (fun j => if j = get_shard_index hash pw then addCount (t j) pw pn else t j)
      rest i) w = _
    rw [ih _ w i hi]
    by_cases hj : i = get_shard_index hash pw
    · rw [if_pos hj, cnt_addCount]
      have hw : ¬ w = pw := by
        intro h
        exact hi (by rw [h, hj])
      rw [if_neg hw]
      exact Nat.add_zero _
    · rw [if_neg hj]

theorem foldl_merge_invariants (hash : String → Nat) (min_len : Nat)
    (parts : List (List FileContent)) :
    ∀ t : ShardTable, shardOK hash t → tblNodup t → tblPos t →
      shardOK hash (parts.foldl
        (fun t part => merge_into hash t (worker_local min_len part)) t) ∧
      tblNodup (parts.foldl
        (fun t part => merge_into hash t (worker_local min_len part)) t) ∧
      tblPos (parts.foldl
        (fun t part => merge_into hash t (worker_local min_len part)) t) := by
  induction parts with
  | nil => intro t h1 h2 h3; exact ⟨h1, h2, h3⟩
  | cons part rest ih =>
    intro t h1 h2 h3
    rw [List.foldl_cons]
    obtain ⟨g1, g2, g3⟩ :=
      merge_into_invariants hash (worker_local min_len part) t
        (valsPos_worker_local min_len part) h1 h2 h3
    exact ih _ g1 g2 g3

theorem run_workers_invariants (hash : String → Nat) (min_len : Nat)
    (parts : List (List FileContent)) :
    shardOK hash (run_workers hash min_len parts) ∧
      tblNodup (run_workers hash min_len parts) ∧
      tblPos (run_workers hash min_len parts) := by
  refine foldl_merge_invariants hash min_len parts emptyTable ?_ ?_ ?_
  · intro i p hp; cases hp
  · intro i; simp [emptyTable, keysNodup]
  · intro i p hp; cases hp

theorem cnt_foldl_merge_shard (hash : String → Nat) (min_len : Nat)
    (parts : List (List FileContent)) :
    ∀ (t : ShardTable) (w : String),
      cnt ((parts.foldl
          (fun t part => merge_into hash t (worker_local min_len part)) t)
        (get_shard_index hash w)) w
        = cnt (t (get_shard_index hash w)) w
          + (parts.map (fun part => cnt (worker_local min_len part) w)).sum := by
  induction parts with
  | nil => intro t w; simp
  | cons part rest ih =>
    intro t w
    rw [List.foldl_cons, ih _ w,
      cnt_merge_into_shard hash (worker_local min_len part) t w
        (keysNodup_worker_local min_len part)]
    simp [Nat.add_assoc]

theorem cnt_foldl_merge_ne (hash : String → Nat) (min_len : Nat)
    (parts : List (List FileContent)) :
    ∀ (t : ShardTable) (w : String) (i : Nat), i ≠ get_shard_index hash w →
      cnt ((parts.foldl
          (fun t part => merge_into hash t (worker_local min_len part)) t) i) w
        = cnt (t i) w := by
  induction parts with
  | nil => intro t w i _; rfl
  | cons part rest ih =>
    intro t w i hi
    rw [List.foldl_cons, ih _ w i hi,
      cnt_merge_into_ne hash (worker_local min_len part) t w i hi]

theorem sum_map_flatten (g : FileContent → Nat) :
    ∀ parts : List (List FileContent),
      (parts.map (fun part => (part.map g).sum)).sum = (parts.flatten.map g).sum := by
  intro parts
  induction parts with
  | nil => rfl
  | cons part rest ih =>
    rw [List.map_cons, List.sum_cons, List.flatten_cons, List.map_append,
      List.sum_append, ih]

theorem cnt_run_workers_shard (hash : String → Nat) (min_len : Nat)
    (parts : List (List FileContent)) (files : List FileContent)
    (hperm : List.Perm parts.flatten files) (w : String) :
    cnt (run_workers hash min_len parts (get_shard_index hash w)) w
      = cnt (worker_local min_len files) w := by
  rw [run_workers, cnt_foldl_merge_shard]
  have h1 : ∀ part, cnt (worker_local min_len part) w
      = (part.map (fun f => (file_tokens min_len f).count w)).sum :=
    fun part => cnt_worker_local min_len part w
  simp only [h1]
  rw [sum_map_flatten,
    List.Perm.sum_eq (List.Perm.map (fun f => (file_tokens min_len f).count w) hperm)]
  simp [emptyTable, cnt]

theorem cnt_run_workers_ne (hash : String → Nat) (min_len : Nat)
    (parts : List (List FileContent)) (w : String) (i : Nat)
    (hi : i ≠ get_shard_index hash w) :
    cnt (run_workers hash min_len parts i) w = 0 := by
  rw [run_workers, cnt_foldl_merge_ne hash min_len parts emptyTable w i hi]
  rfl

theorem cnt_append (m₁ m₂ : CountMap) (w : String) :
    cnt (m₁ ++ m₂) w = if w ∈ m₁.map Prod.fst then cnt m₁ w else cnt m₂ w := by
  induction m₁ with
  | nil => simp
  | cons p rest ih =>
    obtain ⟨w', n⟩ := p
    by_cases hw : w = w'
    · subst hw
      simp [cnt_cons, List.cons_append]
    · rw [List.cons_append, cnt_cons, if_neg hw, ih, cnt_cons, if_neg hw, List.map_cons]
      have hmm : (w ∈ (w', n).1 :: List.map Prod.fst rest)
          ↔ w ∈ List.map Prod.fst rest := by
        rw [List.mem_cons]
        exact ⟨fun h => h.resolve_left hw, Or.inr⟩
      rw [if_congr hmm rfl rfl]

theorem not_mem_keys_of_shard_ne (hash : String → Nat) (t : ShardTable)
    (hOK : shardOK hash t) (i : Nat) (w : String)
    (hi : i ≠ get_shard_index hash w) : w ∉ (t i).map Prod.fst := by
  intro hmem
  rcases List.mem_map.mp hmem with ⟨p, hp, hpw⟩
  exact hi (by rw [← hpw, hOK i p hp])

theorem cnt_flatten_shards (hash : String → Nat) (t : ShardTable)
    (hOK : shardOK hash t) (w : String) :
    ∀ l : List Nat, l.Nodup →
      cnt ((l.map t).flatten) w
        = if get_shard_index hash w ∈ l then cnt (t (get_shard_index hash w)) w
          else 0 := by
  intro l
  induction l with
  | nil => intro _; simp [cnt]
  | cons i rest ih =>
    intro hnd
    rw [List.nodup_cons] at hnd
    rw [List.map_cons, List.flatten_cons, cnt_append, ih hnd.2]
    by_cases hi : i = get_shard_index hash w
    · have hnotin : get_shard_index hash w ∉ rest := hi ▸ hnd.1
      rw [if_pos (List.mem_cons.mpr (Or.inl hi.symm))]
      by_cases hmem : w ∈ (t i).map Prod.fst
      · rw [if_pos hmem, ← hi]
      · rw [if_neg hmem, if_neg hnotin, ← hi,
          cnt_eq_zero_of_not_mem_keys (t i) w hmem]
    · have hiff : get_shard_index hash w ∈ i :: rest
          ↔ get_shard_index hash w ∈ rest := by
        rw [List.mem_cons]
        constructor
        · rintro (h | h)
          · exact absurd h.symm hi
          · exact h
        · exact Or.inr
      rw [if_neg (not_mem_keys_of_shard_ne hash t hOK i w hi), if_congr hiff rfl rfl]

theorem shard_lt (hash : String → Nat) (w : String) :
    get_shard_index hash w < NUM_SHARDS :=
  Nat.mod_lt _ (by rw [NUM_SHARDS]; omega)

theorem cnt_gather (hash : String → Nat) (t : ShardTable)
    (hOK : shardOK hash t) (w : String) :
    cnt (gather t) w = cnt (t (get_shard_index hash w)) w := by
  rw [gather, cnt_flatten_shards hash t hOK w (List.range NUM_SHARDS)
    (List.nodup_range NUM_SHARDS),
    if_pos (List.mem_range.mpr (shard_lt hash w))]

theorem mem_keys_flatten (t : ShardTable) :
    ∀ (l : List Nat) (w : String),
      w ∈ ((l.map t).flatten).map Prod.fst ↔ ∃ j ∈ l, w ∈ (t j).map Prod.fst := by
  intro l w
  induction l with
  | nil => simp
  | cons i rest ih =>
    rw [List.map_cons, List.flatten_cons, List.map_append, List.mem_append, ih]
    constructor
    · rintro (h | ⟨j, hj, hw⟩)
      · exact ⟨i, List.mem_cons_self _ _, h⟩
      · exact ⟨j, List.mem_cons_of_mem _ hj, hw⟩
    · rintro ⟨j, hj, hw⟩
      rcases List.mem_cons.mp hj with h | h
      · exact Or.inl (h ▸ hw)
      · exact Or.inr ⟨j, h, hw⟩

theorem keysNodup_flatten_shards (hash : String → Nat) (t : ShardTable)
    (hOK : shardOK hash t) (hND : tblNodup t) :
    ∀ l : List Nat, l.Nodup → keysNodup ((l.map t).flatten) := by
  intro l
  induction l with
  | nil => intro _; simp [keysNodup]
  | cons i rest ih =>
    intro hnd
    rw [List.nodup_cons] at hnd
    rw [keysNodup, List.map_cons, List.flatten_cons, List.map_append,
      List.nodup_append]
    refine ⟨hND i, ih hnd.2, ?_⟩
    intro w hw1 hw2
    rcases (mem_keys_flatten t rest w).mp hw2 with ⟨j, hj, hwj⟩
    have h1 : get_shard_index hash w = i := by
      rcases List.mem_map.mp hw1 with ⟨p, hp, hpw⟩
      rw [← hpw]
      exact hOK i p hp
    have h2 : get_shard_index hash w = j := by
      rcases List.mem_map.mp hwj with ⟨p, hp, hpw⟩
      rw [← hpw]
      exact hOK j p hp
    exact hnd.1 (h1 ▸ h2 ▸ hj)

theorem keysNodup_gather (hash : String → Nat) (t : ShardTable)
    (hOK : shardOK hash t) (hND : tblNodup t) : keysNodup (gather t) :=
  keysNodup_flatten_shards hash t hOK hND (List.range NUM_SHARDS)
    (List.nodup_range NUM_SHARDS)

theorem valsPos_gather (t : ShardTable) (hP : tblPos t) : valsPos (gather t) := by
  intro p hp
  rw [gather] at hp
  rcases List.mem_flatten.mp hp with ⟨m, hm, hpm⟩
  rcases List.mem_map.mp hm with ⟨i, _, hti⟩
  exact hP i p (hti ▸ hpm)

theorem cnt_erase_ne (m : CountMap) (p : String × Nat) (w : String)
    (hw : w ≠ p.1) : cnt (m.erase p) w = cnt m w := by
  induction m with
  | nil => rfl
  | cons q rest ih =>
    by_cases hq : q = p
    · subst hq
      rw [List.erase_cons_head]
      obtain ⟨qw, qn⟩ := q
      rw [cnt_cons, if_neg hw]
    · rw [List.erase_cons_tail]
      · obtain ⟨qw, qn⟩ := q
        by_cases hwq : w = qw
        · subst hwq
          rw [cnt_cons, if_pos rfl, cnt_cons, if_pos rfl]
        · rw [cnt_cons, if_neg hwq, cnt_cons, if_neg hwq, ih]
      · simp [hq]

theorem not_mem_keys_erase (m : CountMap) (p : String × Nat)
    (hnd : keysNodup m) (hp : p ∈ m) : p.1 ∉ (m.erase p).map Prod.fst := by
  induction m with
  | nil => cases hp
  | cons q rest ih =>
    rw [keysNodup, List.map_cons, List.nodup_cons] at hnd
    by_cases hq : q = p
    · subst hq
      rw [List.erase_cons_head]
      exact hnd.1
    · rw [List.erase_cons_tail (by simp [hq])]
      have hpr : p ∈ rest := (List.mem_cons.mp hp).resolve_left (fun h => hq h.symm)
      rw [List.map_cons, List.mem_cons]
      rintro (h | h)
      · exact hnd.1 (h ▸ List.mem_map_of_mem Prod.fst hpr)
      · exact ih hnd.2 hpr h

theorem keysNodup_erase (m : CountMap) (p : String × Nat)
    (hnd : keysNodup m) : keysNodup (m.erase p) :=
  ((List.erase_sublist p m).map Prod.fst).nodup hnd

theorem valsPos_erase (m : CountMap) (p : String × Nat)
    (h : valsPos m) : valsPos (m.erase p) :=
  fun q hq => h q (List.mem_of_mem_erase hq)

theorem perm_cons_erase_cm (m : CountMap) (p : String × Nat) (hp : p ∈ m) :
    List.Perm m (p :: m.erase p) := by
  induction m with
  | nil => cases hp
  | cons q rest ih =>
    by_cases hq : q = p
    · subst hq
      rw [List.erase_cons_head]
    · rw [List.erase_cons_tail (by simp [hq])]
      have hpr : p ∈ rest := (List.mem_cons.mp hp).resolve_left (fun h => hq h.symm)
      exact ((ih hpr).cons q).trans (List.Perm.swap p q _)

theorem countmap_ext_perm :
    ∀ (m₁ m₂ : CountMap), keysNodup m₁ → keysNodup m₂ →
      valsPos m₁ → valsPos m₂ → (∀ w, cnt m₁ w = cnt m₂ w) →
      List.Perm m₁ m₂ := by
  intro m₁
  induction m₁ with
  | nil =>
    intro m₂ _ hnd2 _ hpos2 hcnt
    cases m₂ with
    | nil => exact List.Perm.refl _
    | cons q rest =>
      exfalso
      obtain ⟨qw, qn⟩ := q
      have h1 : cnt ((qw, qn) :: rest) qw = qn := by rw [cnt_cons, if_pos rfl]
      have h2 : cnt ([] : CountMap) qw = 0 := rfl
      have h3 : 1 ≤ qn := hpos2 (qw, qn) (List.mem_cons_self _ _)
      have h4 := hcnt qw
      rw [h1, h2] at h4
      omega
  | cons p rest ih =>
    intro m₂ hnd1 hnd2 hpos1 hpos2 hcnt
    obtain ⟨pw, pn⟩ := p
    have hk : keysNodup rest := by
      rw [keysNodup, List.map_cons, List.nodup_cons] at hnd1
      exact hnd1.2
    have hpw_notin : pw ∉ rest.map Prod.fst := by
      rw [keysNodup, List.map_cons, List.nodup_cons] at hnd1
      exact hnd1.1
    have hcntp : cnt m₂ pw = pn := by
      rw [← hcnt pw, cnt_cons, if_pos rfl]
    have hpn : 1 ≤ pn := hpos1 (pw, pn) (List.mem_cons_self _ _)
    have hmem : (pw, pn) ∈ m₂ := by
      apply mem_of_lookup_eq_some
      rw [cnt] at hcntp
      cases hl : m₂.lookup pw with
      | none => rw [hl] at hcntp; simp at hcntp; omega
      | some v => rw [hl] at hcntp; simp at hcntp; rw [hcntp]
    have hperm2 : List.Perm m₂ ((pw, pn) :: m₂.erase (pw, pn)) :=
      perm_cons_erase_cm m₂ (pw, pn) hmem
    refine List.Perm.trans (List.Perm.cons (pw, pn) ?_) hperm2.symm
    refine ih (m₂.erase (pw, pn)) hk (keysNodup_erase m₂ _ hnd2)
      (fun q hq => hpos1 q (List.mem_cons_of_mem _ hq))
      (valsPos_erase m₂ _ hpos2) ?_
    intro w
    by_cases hw : w = pw
    · subst hw
      rw [cnt_eq_zero_of_not_mem_keys rest w hpw_notin,
        cnt_eq_zero_of_not_mem_keys _ w (not_mem_keys_erase m₂ (w, pn) hnd2 hmem)]
    · rw [cnt_erase_ne m₂ (pw, pn) w hw, ← hcnt w, cnt_cons, if_neg hw]

theorem insertionSort_congr (l₁ l₂ : List (String × Nat))
    (h : List.Perm l₁ l₂) :
    List.insertionSort rankLE l₁ = List.insertionSort rankLE l₂ :=
  List.eq_of_perm_of_sorted
    ((List.perm_insertionSort rankLE l₁).trans
      (h.trans (List.perm_insertionSort rankLE l₂).symm))
    (List.sorted_insertionSort rankLE l₁)
    (List.sorted_insertionSort rankLE l₂)

theorem rank_select_congr (l₁ l₂ : List (String × Nat)) (top_m : Nat)
    (h : List.Perm l₁ l₂) :
    rank_select l₁ top_m = rank_select l₂ top_m := by
  rw [rank_select, rank_select, insertionSort_congr l₁ l₂ h, h.length_eq]

/-- C5: for a fixed multiset of files split into per-worker shares in any way
and merged in any order, the per-word totals in the sharded table (read at
the shard the word hashes to) equal the totals of a single worker processing
all the files; every other shard holds nothing for the word (no entry lives
in more than one shard); and consequently the final ranked output is
identical regardless of thread count or scheduling order. -/
theorem claim_C5_merge_commutative :
    ∀ (hash : String → Nat) (min_len : Nat) (files : List FileContent)
      (parts : List (List FileContent)) (top_m : Nat),
      List.Perm parts.flatten files →
      (∀ w, cnt (run_workers hash min_len parts (get_shard_index hash w)) w
          = cnt (worker_local min_len files) w) ∧
      (∀ w i, i ≠ get_shard_index hash w →
          cnt (run_workers hash min_len parts i) w = 0) ∧
      rank_select (gather (run_workers hash min_len parts)) top_m
        = rank_select (gather (run_workers hash min_len [files])) top_m := by
  intro hash min_len files parts top_m hperm
  obtain ⟨hOK1, hND1, hP1⟩ := run_workers_invariants hash min_len parts
  obtain ⟨hOK2, hND2, hP2⟩ := run_workers_invariants hash min_len [files]
  refine ⟨fun w => cnt_run_workers_shard hash min_len parts files hperm w,
    fun w i hi => cnt_run_workers_ne hash min_len parts w i hi, ?_⟩
  apply rank_select_congr
  apply countmap_ext_perm
  · exact keysNodup_gather hash _ hOK1 hND1
  · exact keysNodup_gather hash _ hOK2 hND2
  · exact valsPos_gather _ hP1
  · exact valsPos_gather _ hP2
  · intro w
    rw [cnt_gather hash _ hOK1 w, cnt_gather hash _ hOK2 w,
      cnt_run_workers_shard hash min_len parts files hperm w,
      cnt_run_workers_shard hash min_len [files] files (by simp) w]

/-- Witness for C5: the two example files handed to two workers in swapped
order give the same totals and ranked output as one worker holding both. -/
theorem claim_C5_merge_commutative_witness :
    cnt (run_workers (fun _ => 0) 1
        [[["bar baz foo".toList]], [["foo foo bar".toList]]]
        (get_shard_index (fun _ => 0) "foo")) "foo"
      = cnt (worker_local 1 [["foo foo bar".toList], ["bar baz foo".toList]]) "foo" ∧
    rank_select (gather (run_workers (fun _ => 0) 1
        [[["bar baz foo".toList]], [["foo foo bar".toList]]])) 2
      = rank_select (gather (run_workers (fun _ => 0) 1
        [[["foo foo bar".toList], ["bar baz foo".toList]]])) 2 := by
  have h := claim_C5_merge_commutative (fun _ => 0) 1
    [["foo foo bar".toList], ["bar baz foo".toList]]
    [[["bar baz foo".toList]], [["foo foo bar".toList]]] 2
    (by decide)
  exact ⟨h.1 "foo", h.2.2⟩

/-- `Config` (counter.hpp lines 39-44); the C++ fields are `int`. -/
structure Config where
  threads : Int
  top_m : Int
  min_len : Int
  dir_path : String
deriving DecidableEq

/-- The value of the longest leading digit run, `none` when there is none
(`std::stoi` would throw `std::invalid_argument`, which `main` does not
catch, so the run dies either way; both outcomes are modelled as failure).
Leading-whitespace skipping and overflow are not modelled. -/
def stoiDigits (l : List Char) : Option Nat :=
  let ds := l.takeWhile Char.isDigit
  if ds.isEmpty then none
  else some (ds.foldl (fun a c => a * 10 + (c.toNat - 48)) 0)

/-- `std::stoi` on the argument strings. -/
def stoi (s : String) : Option Int :=
  match s.data with
  | '-' :: rest => (stoiDigits rest).map (fun n => -(n : Int))
  | '+' :: rest => (stoiDigits rest).map (fun n => (n : Int))
  | l => (stoiDigits l).map (fun n => (n : Int))

/-- The flag loop of `parse_args` (counter.hpp lines 55-67), running over
`argv[1] .. argv[argc-2]`.  A recognised flag must have its value inside that
same range (`i + 1 < argc - 1`), otherwise it falls through to the
unknown-argument branch and the parse fails. -/
def parse_flags : List String → Config → Option Config
  | [], c => some c
  | a :: rest, c =>
    if a = "--threads" then
      match rest with
      | v :: rest2 =>
        (stoi v).bind (fun n =>
          parse_flags rest2 (Config.mk n c.top_m c.min_len c.dir_path))
      | [] => none
    else if a = "--top" then
      match rest with
      | v :: rest2 =>
        (stoi v).bind (fun n =>
          parse_flags rest2 (Config.mk c.threads n c.min_len c.dir_path))
      | [] => none
    else if a = "--minlen" then
      match rest with
      | v :: rest2 =>
        (stoi v).bind (fun n =>
          parse_flags rest2 (Config.mk c.threads c.top_m n c.dir_path))
      | [] => none
    else none

/-- `parse_args` (counter.hpp lines 46-81): defaults `threads=1, top_m=10,
min_len=1`, last argument is the directory; after the flag loop the three
numeric parameters must all be at least 1, then the directory must exist
(the filesystem check is abstracted as `dirOK`). -/
def parse_args (argv : List String) (dirOK : String → Bool) : Option Config :=
  match argv with
  | [] => none
  | [_] => none
  | _ :: a :: rest2 =>
    match parse_flags (a :: rest2).dropLast
      (Config.mk 1 10 1 ((a :: rest2).getLast (List.cons_ne_nil a rest2))) with
    | none => none
    | some c =>
      if c.threads < 1 ∨ c.top_m < 1 ∨ c.min_len < 1 then none
      else if dirOK ((a :: rest2).getLast (List.cons_ne_nil a rest2)) then some c
      else none

/-- All workers merging their tallies, with open failures included. -/
def run_consumers (hash : String → Nat) (fsys : String → Option FileContent)
    (min_len : Nat) (sched : List (List String)) : ShardTable :=
  sched.foldl
    (fun t part => merge_into hash t (consumer_local fsys min_len part)) emptyTable

/-- The whole program (`main`, counter.hpp lines 175-234).  `sched` gives,
per worker, the sequence of paths that worker popped; the queue hands every
pushed path to exactly one worker, so `sched.flatten` is a permutation of
the directory listing.  `none` models `return 1`, which happens before any
worker thread is started. -/
def counter_main (argv : List String) (dirOK : String → Bool)
    (fsys : String → Option FileContent) (hash : String → Nat)
    (sched : List (List String)) : Option (List (String × Nat)) :=
  match parse_args argv dirOK with
  | none => none
  | some c =>
    some (rank_select (gather (run_consumers hash fsys c.min_len.toNat sched))
      c.top_m.toNat)

theorem run_consumers_eq (hash : String → Nat) (fsys : String → Option FileContent)
    (min_len : Nat) (sched : List (List String)) :
    run_consumers hash fsys min_len sched
      = run_workers hash min_len (sched.map (fun part => part.filterMap fsys)) := by
  rw [run_consumers, run_workers, List.foldl_map]
  have hfun : (fun (t : ShardTable) part =>
        merge_into hash t (consumer_local fsys min_len part))
      = (fun (t : ShardTable) part =>
        merge_into hash t (worker_local min_len (part.filterMap fsys))) := by
    funext t part
    rw [show consumer_local fsys min_len part
      = worker_local min_len (part.filterMap fsys) from
      consumer_foldl_eq fsys min_len part []]
  rw [hfun]

/-- C8: a parsed configuration in which `threads`, `top_m` or `min_len` came
out below 1 is rejected by `parse_args`; a rejected parse makes `main` return
before any worker thread is created; and every accepted configuration has all
three parameters at least 1. -/
theorem claim_C8_config_validation :
    (∀ (argv : List String) (dirOK : String → Bool) (c : Config),
      parse_args argv dirOK = some c →
        1 ≤ c.threads ∧ 1 ≤ c.top_m ∧ 1 ≤ c.min_len) ∧
    (∀ (prog a : String) (rest2 : List String) (dirOK : String → Bool) (c₀ : Config),
      parse_flags (a :: rest2).dropLast
          (Config.mk 1 10 1 ((a :: rest2).getLast (List.cons_ne_nil a rest2)))
        = some c₀ →
      (c₀.threads < 1 ∨ c₀.top_m < 1 ∨ c₀.min_len < 1) →
      parse_args (prog :: a :: rest2) dirOK = none) ∧
    (∀ (argv : List String) (dirOK : String → Bool)
        (fsys : String → Option FileContent) (hash : String → Nat)
        (sched : List (List String)),
      parse_args argv dirOK = none →
        counter_main argv dirOK fsys hash sched = none) := by
  refine ⟨?_, ?_, ?_⟩
  · intro argv dirOK c h
    rcases argv with _ | ⟨p, _ | ⟨a, rest2⟩⟩
    · exact absurd h (by rw [parse_args]; exact Option.noConfusion)
    · exact absurd h (by rw [parse_args]; exact Option.noConfusion)
    · rw [parse_args] at h
      rcases hpf : parse_flags (a :: rest2).dropLast
          (Config.mk 1 10 1 ((a :: rest2).getLast (List.cons_ne_nil a rest2)))
        with _ | c₀
      · rw [hpf] at h
        exact absurd h Option.noConfusion
      · rw [hpf] at h
        dsimp only at h
        by_cases hbad : c₀.threads < 1 ∨ c₀.top_m < 1 ∨ c₀.min_len < 1
        · rw [if_pos hbad] at h
          exact absurd h Option.noConfusion
        · rw [if_neg hbad] at h
          push_neg at hbad
          by_cases hd : dirOK ((a :: rest2).getLast (List.cons_ne_nil a rest2))
          · rw [if_pos hd] at h
            cases h
            exact ⟨by omega, by omega, by omega⟩
          · rw [if_neg hd] at h
            exact absurd h Option.noConfusion
  · intro prog a rest2 dirOK c₀ hpf hbad
    rw [parse_args, hpf]
    dsimp only
    rw [if_pos hbad]
  · intro argv dirOK fsys hash sched h
    rw [counter_main, h]

/-- Witness for C8: `--threads 0` is rejected, and a flagless accepted
configuration has its defaults, all at least 1. -/
theorem claim_C8_config_validation_witness :
    parse_args ["prog", "--threads", "0", "dir"] (fun _ => true) = none ∧
    (1 ≤ (Config.mk 1 10 1 "dir").threads ∧ 1 ≤ (Config.mk 1 10 1 "dir").top_m ∧
      1 ≤ (Config.mk 1 10 1 "dir").min_len) :=
  ⟨claim_C8_config_validation.2.1 "prog" "--threads" ["0", "dir"] (fun _ => true)
      (Config.mk 0 10 1 "dir") (by decide) (by decide),
    claim_C8_config_validation.1 ["prog", "dir"] (fun _ => true)
      (Config.mk 1 10 1 "dir") (by decide)⟩

/-- C1: with exactly two files, one reading `"foo foo bar"` and the other
`"bar baz foo"`, and `min_word_len = 1, top_m = 2` (passed as `--minlen 1`
`--top 2`), the counter emits `[("foo", 3), ("bar", 2)]` in that order, for
every hash function and every way the queue's two paths are split among
workers. -/
theorem claim_C1_concrete_scenario :
    ∀ (hash : String → Nat) (sched : List (List String)),
      List.Perm sched.flatten ["A", "B"] →
      counter_main ["prog", "--top", "2", "--minlen", "1", "dir"] (fun _ => true)
        (fun p => if p = "A" then some [("foo foo bar".toList)]
          else if p = "B" then some [("bar baz foo".toList)] else none)
        hash sched
        = some [("foo", 3), ("bar", 2)] := by
  intro hash sched hperm
  have hp : parse_args ["prog", "--top", "2", "--minlen", "1", "dir"] (fun _ => true)
      = some (Config.mk 1 2 1 "dir") := by decide
  rw [counter_main, hp]
  dsimp only
  simp only [show Int.toNat 1 = 1 from rfl, show Int.toNat 2 = 2 from rfl]
  rw [run_consumers_eq]
  have hflat : List.Perm
      ((sched.map (fun part => part.filterMap
        (fun p => if p = "A" then some [("foo foo bar".toList)]
          else if p = "B" then some [("bar baz foo".toList)] else none))).flatten)
      [[("foo foo bar".toList)], [("bar baz foo".toList)]] := by
    rw [← List.filterMap_flatten]
    have h2 := List.Perm.filterMap
      (fun p => if p = "A" then some [("foo foo bar".toList)]
        else if p = "B" then some [("bar baz foo".toList)] else none) hperm
    rw [show (["A", "B"].filterMap
        (fun p => if p = "A" then some [("foo foo bar".toList)]
          else if p = "B" then some [("bar baz foo".toList)] else none))
      = [[("foo foo bar".toList)], [("bar baz foo".toList)]] from by decide] at h2
    exact h2
  obtain ⟨hOK, hND, hP⟩ := run_workers_invariants hash 1
    (sched.map (fun part => part.filterMap
      (fun p => if p = "A" then some [("foo foo bar".toList)]
        else if p = "B" then some [("bar baz foo".toList)] else none)))
  have hext : List.Perm
      (gather (run_workers hash 1
        (sched.map (fun part => part.filterMap
          (fun p => if p = "A" then some [("foo foo bar".toList)]
            else if p = "B" then some [("bar baz foo".toList)] else none)))))
      (worker_local 1 [[("foo foo bar".toList)], [("bar baz foo".toList)]]) := by
    apply countmap_ext_perm
    · exact keysNodup_gather hash _ hOK hND
    · exact keysNodup_worker_local 1 _
    · exact valsPos_gather _ hP
    · exact valsPos_worker_local 1 _
    · intro w
      rw [cnt_gather hash _ hOK w,
        cnt_run_workers_shard hash 1 _ _ hflat w]
  rw [rank_select_congr _ _ _ hext]
  decide

/-- Witness for C1: a constant hash and a single worker popping both paths. -/
theorem claim_C1_concrete_scenario_witness :
    counter_main ["prog", "--top", "2", "--minlen", "1", "dir"] (fun _ => true)
      (fun p => if p = "A" then some [("foo foo bar".toList)]
        else if p = "B" then some [("bar baz foo".toList)] else none)
      (fun _ => 0) [["A", "B"]]
      = some [("foo", 3), ("bar", 2)] :=
  claim_C1_concrete_scenario (fun _ => 0) [["A", "B"]] (by decide)

/-- A character as it may appear in a stored token: a word character that is
not an uppercase letter (tokens are case-folded before insertion). -/
def goodChar (c : Char) : Prop :=
  is_word_char c = true ∧ ¬('A' ≤ c ∧ c ≤ 'Z')

/-- Well-formedness of a stored word (claim C10): non-empty, at least
`min_len` characters, all of them lowercase-folded word characters. -/
def goodWord (min_len : Nat) (w : String) : Prop :=
  w.data ≠ [] ∧ min_len ≤ w.data.length ∧ ∀ c ∈ w.data, goodChar c

/-- Every entry of the map has a well-formed word and a positive count. -/
def mapGood (min_len : Nat) (m : CountMap) : Prop :=
  ∀ p ∈ m, goodWord min_len p.1 ∧ 1 ≤ p.2

theorem goodChar_tolower (c : Char) (h : is_word_char c = true) :
    goodChar (ascii_tolower c) := by
  rw [ascii_tolower]
  by_cases hu : 'A' ≤ c ∧ c ≤ 'Z'
  · rw [if_pos hu]
    have g1 : 65 ≤ c.toNat := hu.1
    have g2 : c.toNat ≤ 90 := hu.2
    have hv : c.toNat + 32 < 0xd800 := by omega
    have ht : (Char.ofNat (c.toNat + 32)).toNat = c.toNat + 32 := by
      rw [Char.ofNat, dif_pos (Or.inl hv : Nat.isValidChar (c.toNat + 32))]
      rfl
    have hlo : 'a' ≤ Char.ofNat (c.toNat + 32) := by
      show (97 : Nat) ≤ (Char.ofNat (c.toNat + 32)).toNat
      omega
    have hhi : Char.ofNat (c.toNat + 32) ≤ 'z' := by
      show (Char.ofNat (c.toNat + 32)).toNat ≤ 122
      omega
    constructor
    · rw [is_word_char]
      simp [hlo, hhi]
    · rintro ⟨hA, hZ⟩
      have hZ2 : (Char.ofNat (c.toNat + 32)).toNat ≤ 90 := hZ
      omega
  · rw [if_neg hu]
    exact ⟨h, hu⟩

theorem mapGood_addCount (min_len : Nat) (m : CountMap) (w : String) (k : Nat)
    (hm : mapGood min_len m) (hw : goodWord min_len w) (hk : 1 ≤ k) :
    mapGood min_len (addCount m w k) := by
  intro q hq
  have hpos : 1 ≤ q.2 :=
    valsPos_addCount m w k hk (fun p hp => (hm p hp).2) q hq
  rcases mem_addCount m w k q hq with h1 | h1
  · exact ⟨(hm q h1).1, hpos⟩
  · exact ⟨h1 ▸ hw, hpos⟩

theorem mapGood_parse_go (min_len : Nat) (hmin : 1 ≤ min_len) (line : List Char) :
    ∀ (cur : List Char) (m : CountMap), (∀ c ∈ cur, goodChar c) →
      mapGood min_len m → mapGood min_len (parse_go min_len line cur m) := by
  induction line with
  | nil =>
    intro cur m hcur hm
    rw [parse_go]
    by_cases h : min_len ≤ cur.length
    · rw [if_pos h]
      refine mapGood_addCount min_len m _ 1 hm ⟨?_, h, hcur⟩ (by omega)
      intro he
      have he2 : cur = [] := he
      rw [he2] at h
      simp at h
      omega
    · rw [if_neg h]
      exact hm
  | cons c rest ih =>
    intro cur m hcur hm
    rw [parse_go]
    by_cases hc : is_word_char c
    · rw [if_pos hc]
      refine ih _ m ?_ hm
      intro d hd
      rcases List.mem_append.mp hd with h1 | h1
      · exact hcur d h1
      · rw [List.mem_singleton.mp h1]
        exact goodChar_tolower c hc
    · rw [if_neg hc]
      refine ih [] _ (by intro d hd; cases hd) ?_
      by_cases h : min_len ≤ cur.length
      · rw [if_pos h]
        refine mapGood_addCount min_len m _ 1 hm ⟨?_, h, hcur⟩ (by omega)
        intro he
        have he2 : cur = [] := he
        rw [he2] at h
        simp at h
        omega
      · rw [if_neg h]
        exact hm

theorem mapGood_count_file (min_len : Nat) (hmin : 1 ≤ min_len) (f : FileContent) :
    ∀ m, mapGood min_len m → mapGood min_len (count_file min_len m f) := by
  induction f with
  | nil => intro m hm; exact hm
  | cons l rest ih =>
    intro m hm
    exact ih _ (mapGood_parse_go min_len hmin l [] m (by intro d hd; cases hd) hm)

theorem mapGood_worker_local (min_len : Nat) (hmin : 1 ≤ min_len)
    (files : List FileContent) : mapGood min_len (worker_local min_len files) := by
  rw [worker_local]
  have : ∀ m, mapGood min_len m → mapGood min_len (files.foldl (count_file min_len) m) := by
    induction files with
    | nil => intro m hm; exact hm
    | cons f rest ih =>
      intro m hm
      exact ih _ (mapGood_count_file min_len hmin f m hm)
  exact this [] (by intro p hp; cases hp)

theorem mapGood_consumer_local (min_len : Nat) (hmin : 1 ≤ min_len)
    (fsys : String → Option FileContent) (paths : List String) :
    mapGood min_len (consumer_local fsys min_len paths) := by
  rw [show consumer_local fsys min_len paths
    = worker_local min_len (paths.filterMap fsys) from
    consumer_foldl_eq fsys min_len paths []]
  exact mapGood_worker_local min_len hmin _

/-- Every shard of the table is `mapGood`. -/
def tblGood (min_len : Nat) (t : ShardTable) : Prop :=
  ∀ i, mapGood min_len (t i)

theorem tblGood_merge_into (hash : String → Nat) (min_len : Nat) (loc : CountMap) :
    ∀ t : ShardTable, mapGood min_len loc → tblGood min_len t →
      tblGood min_len (merge_into hash t loc) := by
  induction loc with
  | nil => intro t _ ht; exact ht
  | cons p rest ih =>
    intro t hloc ht
    obtain ⟨pw, pn⟩ := p
    show tblGood min_len (merge_into hash
      (fun i => if i = get_shard_index hash pw then addCount (t i) pw pn else t i) rest)
    refine ih _ (fun q hq => hloc q (List.mem_cons_of_mem _ hq)) ?_
    intro i
    dsimp only
    by_cases hi : i = get_shard_index hash pw
    · rw [if_pos hi]
      exact mapGood_addCount min_len (t i) pw pn (ht i)
        (hloc (pw, pn) (List.mem_cons_self _ _)).1
        (hloc (pw, pn) (List.mem_cons_self _ _)).2
    · rw [if_neg hi]
      exact ht i

theorem tblGood_run_consumers (hash : String → Nat)
    (fsys : String → Option FileContent) (min_len : Nat) (hmin : 1 ≤ min_len)
    (sched : List (List String)) :
    tblGood min_len (run_consumers hash fsys min_len sched) := by
  rw [run_consumers]
  have : ∀ t : ShardTable, tblGood min_len t →
      tblGood min_len (sched.foldl
        (fun t part => merge_into hash t (consumer_local fsys min_len part)) t) := by
    induction sched with
    | nil => intro t ht; exact ht
    | cons part rest ih =>
      intro t ht
      exact ih _ (tblGood_merge_into hash min_len _ t
        (mapGood_consumer_local min_len hmin fsys part) ht)
  exact this emptyTable (by intro i p hp; cases hp)

/-- The modulus of `uint64_t` arithmetic. -/
def UINT64_MOD : Nat := 2 ^ 64

/-- `map[w] += k` with faithful `uint64_t` wraparound: the stored count is
always reduced mod `2 ^ 64` (counter.hpp lines 131, 138 and 171 all add into
a `uint64_t`). -/
def addCount64 : CountMap → String → Nat → CountMap
  | [], w, k => [(w, k % UINT64_MOD)]
  | (w', n) :: rest, w, k =>
    if w' = w then (w', (n + k) % UINT64_MOD) :: rest
    else (w', n) :: addCount64 rest w k

/-- Reduce every stored count mod `2 ^ 64`. -/
def wrap64 (m : CountMap) : CountMap :=
  m.map (fun p => (p.1, p.2 % UINT64_MOD))

/-- Reduce every shard of a table mod `2 ^ 64`. -/
def wrap64T (t : ShardTable) : ShardTable := fun i => wrap64 (t i)

/-- The loop of `parse_line_and_count` with wrapped `uint64_t` counts. -/
def parse_go64 (min_len : Nat) : List Char → List Char → CountMap → CountMap
  | [], cur, m => if min_len ≤ cur.length then addCount64 m (String.mk cur) 1 else m
  | c :: rest, cur, m =>
    if is_word_char c then parse_go64 min_len rest (cur ++ [ascii_tolower c]) m
    else parse_go64 min_len rest []
      (if min_len ≤ cur.length then addCount64 m (String.mk cur) 1 else m)

/-- `parse_line_and_count` with wrapped `uint64_t` counts. -/
def parse_line_and_count64 (line : List Char) (min_len : Nat) (m : CountMap) : CountMap :=
  parse_go64 min_len line [] m

/-- The per-file line loop of `consumer` with wrapped counts. -/
def count_file64 (min_len : Nat) (m : CountMap) (f : FileContent) : CountMap :=
  f.foldl (fun m l => parse_line_and_count64 l min_len m) m

/-- The pop loop of `consumer` with wrapped counts and open failures. -/
def consumer_local64 (fsys : String → Option FileContent) (min_len : Nat)
    (paths : List String) : CountMap :=
  paths.foldl (fun m p =>
    match fsys p with
    | none => m
    | some f => count_file64 min_len m f) []

/-- The merge loop of `consumer` with wrapped counts (line 171 adds the
worker's stored count into a `uint64_t` shard entry). -/
def merge_into64 (hash : String → Nat) (t : ShardTable) (loc : CountMap) : ShardTable :=
  loc.foldl (fun t p => fun i =>
    if i = get_shard_index hash p.1 then addCount64 (t i) p.1 p.2 else t i) t

/-- All workers merging their wrapped tallies. -/
def run_consumers64 (hash : String → Nat) (fsys : String → Option FileContent)
    (min_len : Nat) (sched : List (List String)) : ShardTable :=
  sched.foldl
    (fun t part => merge_into64 hash t (consumer_local64 fsys min_len part)) emptyTable

theorem addCount64_wrap (m : CountMap) (w : String) (k : Nat) :
    addCount64 (wrap64 m) w k = wrap64 (addCount m w k) := by
  induction m with
  | nil => rfl
  | cons p rest ih =>
    obtain ⟨w', n⟩ := p
    by_cases hw : w' = w
    · subst hw
      show addCount64 ((w', n % UINT64_MOD) :: wrap64 rest) w' k = _
      rw [addCount64, if_pos rfl, addCount, if_pos rfl]
      show _ = (w', (n + k) % UINT64_MOD) :: wrap64 rest
      rw [Nat.mod_add_mod]
    · show addCount64 ((w', n % UINT64_MOD) :: wrap64 rest) w k = _
      rw [addCount64, if_neg hw, addCount, if_neg hw, ih]
      rfl

theorem wrap64_addCount_mod (m : CountMap) (w : String) (k : Nat) :
    wrap64 (addCount m w (k % UINT64_MOD)) = wrap64 (addCount m w k) := by
  induction m with
  | nil =>
    show [(w, k % UINT64_MOD % UINT64_MOD)] = [(w, k % UINT64_MOD)]
    rw [Nat.mod_mod_of_dvd k dvd_rfl]
  | cons p rest ih =>
    obtain ⟨w', n⟩ := p
    by_cases hw : w' = w
    · subst hw
      rw [addCount, if_pos rfl, addCount, if_pos rfl]
      show (w', (n + k % UINT64_MOD) % UINT64_MOD) :: wrap64 rest
        = (w', (n + k) % UINT64_MOD) :: wrap64 rest
      rw [Nat.add_mod_mod]
    · rw [addCount, if_neg hw, addCount, if_neg hw]
      show (w', n % UINT64_MOD) :: wrap64 (addCount rest w (k % UINT64_MOD))
        = (w', n % UINT64_MOD) :: wrap64 (addCount rest w k)
      rw [ih]

theorem parse_go64_wrap (min_len : Nat) (line : List Char) :
    ∀ (cur : List Char) (m : CountMap),
      parse_go64 min_len line cur (wrap64 m) = wrap64 (parse_go min_len line cur m) := by
  induction line with
  | nil =>
    intro cur m
    rw [parse_go64, parse_go]
    by_cases h : min_len ≤ cur.length
    · rw [if_pos h, if_pos h, addCount64_wrap]
    · rw [if_neg h, if_neg h]
  | cons c rest ih =>
    intro cur m
    rw [parse_go64, parse_go]
    by_cases hc : is_word_char c
    · rw [if_pos hc, if_pos hc, ih]
    · rw [if_neg hc, if_neg hc]
      by_cases h : min_len ≤ cur.length
      · rw [if_pos h, if_pos h, addCount64_wrap, ih]
      · rw [if_neg h, if_neg h, ih]

theorem count_file64_wrap (min_len : Nat) (f : FileContent) :
    ∀ m : CountMap, count_file64 min_len (wrap64 m) f = wrap64 (count_file min_len m f) := by
  induction f with
  | nil => intro m; rfl
  | cons l rest ih =>
    intro m
    show count_file64 min_len (parse_line_and_count64 l min_len (wrap64 m)) rest
      = wrap64 (count_file min_len (parse_line_and_count l min_len m) rest)
    rw [parse_line_and_count64, parse_go64_wrap]
    exact ih _

theorem consumer_local64_wrap (fsys : String → Option FileContent) (min_len : Nat)
    (paths : List String) :
    consumer_local64 fsys min_len paths = wrap64 (consumer_local fsys min_len paths) := by
  rw [consumer_local64, consumer_local]
  have h : ∀ m : CountMap,
      paths.foldl (fun m p =>
        match fsys p with
        | none => m
        | some f => count_file64 min_len m f) (wrap64 m)
      = wrap64 (paths.foldl (fun m p =>
        match fsys p with
        | none => m
        | some f => count_file min_len m f) m) := by
    induction paths with
    | nil => intro m; rfl
    | cons p rest ih =>
      intro m
      rcases hp : fsys p with _ | f
      · simp only [List.foldl_cons, hp]
        exact ih m
      · simp only [List.foldl_cons, hp]
        rw [count_file64_wrap min_len f m]
        exact ih _
  exact h []

theorem merge_into64_wrap (hash : String → Nat) (loc : CountMap) :
    ∀ t : ShardTable,
      merge_into64 hash (wrap64T t) (wrap64 loc) = wrap64T (merge_into hash t loc) := by
  induction loc with
  | nil => intro t; rfl
  | cons p rest ih =>
    intro t
    obtain ⟨pw, pn⟩ := p
    show merge_into64 hash
      (fun i => if i = get_shard_index hash pw
        then addCount64 ((wrap64T t) i) pw (pn % UINT64_MOD) else (wrap64T t) i)
      (wrap64 rest) = _
    have hstep : (fun i => if i = get_shard_index hash pw
        then addCount64 ((wrap64T t) i) pw (pn % UINT64_MOD) else (wrap64T t) i)
      = wrap64T (fun i => if i = get_shard_index hash pw
        then addCount (t i) pw pn else t i) := by
      funext i
      show (if i = get_shard_index hash pw
          then addCount64 (wrap64 (t i)) pw (pn % UINT64_MOD) else wrap64 (t i))
        = wrap64 (if i = get_shard_index hash pw then addCount (t i) pw pn else t i)
      by_cases hi : i = get_shard_index hash pw
      · rw [if_pos hi, if_pos hi, addCount64_wrap, wrap64_addCount_mod]
      · rw [if_neg hi, if_neg hi]
    rw [hstep, ih]
    rfl

theorem run_consumers64_wrap (hash : String → Nat)
    (fsys : String → Option FileContent) (min_len : Nat)
    (sched : List (List String)) :
    run_consumers64 hash fsys min_len sched
      = wrap64T (run_consumers hash fsys min_len sched) := by
  rw [run_consumers64, run_consumers]
  have hempty : emptyTable = wrap64T emptyTable := by
    funext i; rfl
  rw [hempty]
  have h : ∀ t : ShardTable,
      sched.foldl (fun t part =>
        merge_into64 hash t (consumer_local64 fsys min_len part)) (wrap64T t)
      = wrap64T (sched.foldl (fun t part =>
        merge_into hash t (consumer_local fsys min_len part)) t) := by
    induction sched with
    | nil => intro t; rfl
    | cons part rest ih =>
      intro t
      simp only [List.foldl_cons]
      rw [consumer_local64_wrap, merge_into64_wrap]
      exact ih _
  exact h emptyTable

theorem gather_wrap (t : ShardTable) : gather (wrap64T t) = wrap64 (gather t) := by
  rw [gather, gather, wrap64, List.map_flatten, List.map_map]
  rfl

theorem mem_wrap64 (m : CountMap) (p : String × Nat) :
    p ∈ wrap64 m ↔ ∃ q ∈ m, p.1 = q.1 ∧ p.2 = q.2 % UINT64_MOD := by
  rw [wrap64, List.mem_map]
  constructor
  · rintro ⟨q, hq, heq⟩
    exact ⟨q, hq, by rw [← heq], by rw [← heq]⟩
  · rintro ⟨q, hq, h1, h2⟩
    refine ⟨q, hq, ?_⟩
    show (q.1, q.2 % UINT64_MOD) = p
    rw [← h1, ← h2]

/-- C10 (amended): every `(word, count)` entry ever stored — in a worker's
private tally, in any shard of the global table, and hence in the emitted
output — has a non-empty word of length at least `min_len` consisting only
of word characters with no uppercase letters, and its stored `uint64_t`
count is the mod-`2 ^ 64` reduction of a positive exact total (hence at
least 1 whenever that total is not a positive multiple of `2 ^ 64`). -/
theorem claim_C10_wellformed_wrapped :
    ∀ (hash : String → Nat) (fsys : String → Option FileContent)
      (min_len : Nat) (sched : List (List String)) (top_m : Nat),
      1 ≤ min_len →
      (∀ (part : List String) (p : String × Nat),
        p ∈ consumer_local64 fsys min_len part →
          goodWord min_len p.1 ∧ ∃ n, 1 ≤ n ∧ p.2 = n % UINT64_MOD) ∧
      (∀ (i : Nat) (p : String × Nat),
        p ∈ run_consumers64 hash fsys min_len sched i →
          goodWord min_len p.1 ∧ ∃ n, 1 ≤ n ∧ p.2 = n % UINT64_MOD) ∧
      (∀ p : String × Nat,
        p ∈ rank_select (gather (run_consumers64 hash fsys min_len sched)) top_m →
          goodWord min_len p.1 ∧ ∃ n, 1 ≤ n ∧ p.2 = n % UINT64_MOD) := by
  intro hash fsys min_len sched top_m hmin
  have hdecomp : ∀ (m : CountMap), mapGood min_len m → ∀ p : String × Nat,
      p ∈ wrap64 m → goodWord min_len p.1 ∧ ∃ n, 1 ≤ n ∧ p.2 = n % UINT64_MOD := by
    intro m hm p hp
    rcases (mem_wrap64 m p).mp hp with ⟨q, hq, h1, h2⟩
    exact ⟨h1 ▸ (hm q hq).1, q.2, (hm q hq).2, h2⟩
  refine ⟨?_, ?_, ?_⟩
  · intro part p hp
    rw [consumer_local64_wrap] at hp
    exact hdecomp _ (mapGood_consumer_local min_len hmin fsys part) p hp
  · intro i p hp
    rw [run_consumers64_wrap] at hp
    exact hdecomp _ (tblGood_run_consumers hash fsys min_len hmin sched i) p hp
  · intro p hp
    have h1 : p ∈ List.insertionSort rankLE
        (gather (run_consumers64 hash fsys min_len sched)) :=
      (List.take_sublist _ _).mem hp
    have h2 : p ∈ gather (run_consumers64 hash fsys min_len sched) :=
      (List.perm_insertionSort rankLE _).mem_iff.mp h1
    rw [run_consumers64_wrap, gather_wrap] at h2
    refine hdecomp _ ?_ p h2
    intro q hq
    rw [gather] at hq
    rcases List.mem_flatten.mp hq with ⟨mm, hmm, hqm⟩
    rcases List.mem_map.mp hmm with ⟨i, _, hti⟩
    exact tblGood_run_consumers hash fsys min_len hmin sched i q (hti ▸ hqm)

/-- Witness for the amended C10 on a one-file, one-word run. -/
theorem claim_C10_wellformed_wrapped_witness :
    goodWord 1 (Prod.fst (("a", 1) : String × Nat))
      ∧ ∃ n, 1 ≤ n ∧ Prod.snd (("a", 1) : String × Nat) = n % UINT64_MOD :=
  (claim_C10_wellformed_wrapped (fun _ => 0)
      (fun p => if p = "A" then some [("a".toList)] else none) 1 [["A"]] 2
      (by decide)).1 ["A"] ("a", 1) (by decide)

/-- Counterexample to C10 as stated: stored counts are `uint64_t` and wrap.
A worker whose finite input holds `2 ^ 63` occurrences of `w` ends with the
tally entry `("w", 2 ^ 63)`; when two such workers merge into the table
(counter.hpp line 171, `+=` on `uint64_t`), the shard `w` hashes to ends up
holding the entry `("w", 0)` — present, but with stored count `0`, not at
least 1.  The tally-level `++` (line 131) wraps the same way: a count of
`2 ^ 64 - 1` plus one more occurrence stores `0`. -/
theorem claim_C10_counterexample :
    ("w", 0) ∈ merge_into64 (fun _ => 0)
        (merge_into64 (fun _ => 0) emptyTable [("w", 2 ^ 63)]) [("w", 2 ^ 63)] 0 ∧
      addCount64 [("w", 2 ^ 64 - 1)] "w" 1 = [("w", 0)] ∧
      ¬ (1 ≤ (("w", (0 : Nat)) : String × Nat).2) := by
  refine ⟨?_, ?_, by decide⟩
  · decide
  · decide
